import Mathlib

/-!
Verification of the scheduling/throttling core of the icarus bounty scanner.

The Python sources are shallowly embedded:

* `src/scanner/loader.py` (`fetch_h1_targets`)  → `fetch_h1_targets` below,
  with the eligibility-gate loop as `gateStep` / `gateLoop` over a JSON-like
  value model `JVal` (the persisted history file is arbitrary JSON, and the
  gate accesses it dynamically; Python exceptions surface as `Except Err`).
* `src/scanner/throttler.py` (`ProgramThrottler`)  → `ProgramThrottler`.
* `src/main.py` (`main_loop` task construction and the `asyncio.Semaphore`
  bounded executor)  → `taskList` and the step relation `ExecStep`.
* the atomic temp-file-then-rename save  → the crash-step model `saveCrash`.

Machine reals (`float` rps values) are modelled as `Rat`: the code only moves
these values around and compares them, never does lossy float arithmetic on
them.  Timestamps are seconds as `Int`; `datetime.isoformat(timespec="seconds")`
/ `datetime.fromisoformat` become an abstract injective string codec
`encodeTs` / `decodeTs` whose parse failure models `ValueError`.  The stored
strings carry the `"Z"` suffix the writer always appends, so the parsed
datetimes are timezone-aware while `now = datetime.utcnow()` is naive; the
cooldown comparison on line 82 therefore raises `TypeError` whenever
`last_scan` is set, and `cooldownActive` models exactly that.
-/

namespace Icarus

/-- Python `dict.get(k)`: first binding wins (Python dicts have unique keys;
arbitrary JSON from disk may not, and lookup then sees the first). -/
def getAL {β : Type} (l : List (String × β)) (k : String) : Option β :=
  (l.find? (fun kv => kv.1 == k)).map (fun kv => kv.2)

/-- Python `dict[k] = v`: replace the value at an existing key in place,
else append the new binding. -/
def setAL {β : Type} (l : List (String × β)) (k : String) (v : β) :
    List (String × β) :=
  match l with
  | [] => [(k, v)]
  | kv :: rest => if kv.1 == k then (k, v) :: rest else kv :: setAL rest k v

theorem getAL_nil {β : Type} (k : String) : getAL ([] : List (String × β)) k = none := rfl

theorem getAL_cons {β : Type} (k₀ : String) (v₀ : β) (l : List (String × β)) (k : String) :
    getAL ((k₀, v₀) :: l) k = if k₀ = k then some v₀ else getAL l k := by
  by_cases h : k₀ = k
  · rw [getAL, List.find?_cons_of_pos _ (by simp [h]), if_pos h]
    rfl
  · rw [getAL, List.find?_cons_of_neg _ (by simp [h]), if_neg h]
    rfl

theorem getAL_setAL {β : Type} (l : List (String × β)) (k k' : String) (v : β) :
    getAL (setAL l k v) k' = if k = k' then some v else getAL l k' := by
  induction l with
  | nil => exact getAL_cons k v [] k'
  | cons kv rest ih =>
    obtain ⟨k₀, v₀⟩ := kv
    by_cases h0 : k₀ = k
    · subst h0
      simp only [setAL, beq_self_eq_true, if_true]
      rw [getAL_cons, getAL_cons]
      by_cases h : k₀ = k' <;> simp [h]
    · have hb : (k₀ == k) = false := by simp [h0]
      simp only [setAL, hb, Bool.false_eq_true, if_false]
      rw [getAL_cons, ih, getAL_cons]
      by_cases h1 : k₀ = k'
      · have h2 : ¬ k = k' := fun hh => h0 (by rw [hh, h1])
        simp [h1, h2]
      · by_cases h2 : k = k' <;> simp [h1, h2]

/-- Timestamp → string, standing for `isoformat(timespec="seconds") + "Z"`.
Injective, never empty. -/
def encodeTs (t : Int) : String :=
  String.mk ((if t < 0 then '-' else '+') :: List.replicate t.natAbs 'I')

/-- The character-list part of the timestamp parser. -/
def decodeChars : List Char → Option Int
  | [] => none
  | c :: rest =>
    if rest.all (fun d => d = 'I') then
      if c = '+' then some (rest.length : Int)
      else if c = '-' then some (-(rest.length : Int))
      else none
    else none

/-- String → timestamp, standing for `datetime.fromisoformat`; `none` models
`ValueError` on strings not produced by the encoder. -/
def decodeTs (s : String) : Option Int := decodeChars s.data

theorem all_replicate_self (n : Nat) :
    (List.replicate n 'I').all (fun d => d = 'I') = true := by
  induction n with
  | zero => rfl
  | succ m ih => simp [List.replicate]

theorem decodeTs_encodeTs (t : Int) : decodeTs (encodeTs t) = some t := by
  by_cases h : t < 0
  · have h1 : decodeTs (encodeTs t) = some (-(t.natAbs : Int)) := by
      simp +decide [decodeTs, encodeTs, decodeChars, if_pos h, all_replicate_self]
    rw [h1]
    congr 1
    omega
  · have h1 : decodeTs (encodeTs t) = some ((t.natAbs : Int)) := by
      simp +decide [decodeTs, encodeTs, decodeChars, if_neg h, all_replicate_self]
    rw [h1]
    congr 1
    omega

theorem encodeTs_ne_empty (t : Int) : encodeTs t ≠ "" := by
  intro h
  have h1 : (encodeTs t).data.head? = some (if t < 0 then '-' else '+') := rfl
  rw [h] at h1
  simp at h1

/-- `date(now)` as a UTC day number (the code uses `now.date().isoformat()`;
only that it is a function of `now` distinct from the `"last_scan"` key
matters to any claim). -/
def dateOf (t : Int) : Int := t / 86400

/-- The ISO-date dictionary key for the day containing `t`. -/
def todayKey (t : Int) : String := String.mk ('d' :: (toString (dateOf t)).data)

theorem todayKey_ne_lastScan (t : Int) : todayKey t ≠ "last_scan" := by
  intro h
  have h1 : (todayKey t).data.head? = some 'd' := rfl
  rw [h] at h1
  exact absurd h1 (by decide)

/-- JSON values, as far as `json.loads`/`json.dump` and the gate observe them. -/
inductive JVal : Type where
  | obj : List (String × JVal) → JVal
  | arr : List JVal → JVal
  | str : String → JVal
  | num : Int → JVal
  | null : JVal

/-- Python truthiness of a JSON value (`if last_scan_str:`). -/
def jTruthy : JVal → Bool
  | .obj fs => !fs.isEmpty
  | .arr l => !l.isEmpty
  | .str s => !s.data.isEmpty
  | .num n => n != 0
  | .null => false

/-- Python exceptions the gate can raise while reading untyped history. -/
inductive Err : Type where
  | attributeError
  | typeError
  | valueError

/-- `v.get(...)` on a non-dict raises `AttributeError`. -/
def asObj : JVal → Except Err (List (String × JVal))
  | .obj fs => .ok fs
  | _ => .error .attributeError

/-- `s.replace(...)` on a non-string raises `AttributeError`. -/
def asStr : JVal → Except Err String
  | .str s => .ok s
  | _ => .error .attributeError

/-- `x >= daily_limit` on a non-number raises `TypeError`. -/
def asNum : JVal → Except Err Int
  | .num n => .ok n
  | _ => .error .typeError

/-- One asset record of the remote feed: `{"asset": ..., "eligible": ...}`. -/
structure FeedAsset : Type where
  asset : String
  eligible : Bool

/-- One program record of the remote feed (`data["programs"]` entry):
`name`, `assets`, and `policy.max_requests_per_second` when present. -/
structure FeedProgram : Type where
  name : String
  assets : List FeedAsset
  policyRps : Option Rat

/-- A `program_overrides` entry; the `rps` key may be absent. -/
structure OverrideEntry : Type where
  rps : Option Rat

/-- A `manual_targets` entry. -/
structure ManualTarget : Type where
  program : String
  assets : List String
  rps : Option Rat

/-- The recognized process configuration (`scanner.yaml` keys the core reads),
with the defaults the code supplies via `config.get`. -/
structure Config : Type where
  manualRun : Bool
  manualTargets : List ManualTarget
  defaultRps : Rat
  programOverrides : List (String × OverrideEntry)
  dailyLimit : Int
  cooldownHours : Rat
  maxConcurrentScans : Nat
  dryRun : Bool

/-- One entry of the `programs` mapping `fetch_h1_targets` returns. -/
structure ProgInfo : Type where
  assets : List String
  rps : Rat

/-- The `programs` mapping, in dict insertion order. -/
abbrev Programs : Type := List (String × ProgInfo)

/-- Gate-loop accumulator: `(programs, history, updated)`. -/
abbrev GState : Type := Programs × JVal × Bool

/-- `[a["asset"] for a in p.get("assets", []) if a.get("eligible", False)]`. -/
def eligAssets (q : FeedProgram) : List String :=
  (q.assets.filter (fun a => a.eligible)).map (fun a => a.asset)

/-- The effective rps of a live-mode program: the feed's
`policy.max_requests_per_second` else `default_rps`, then replaced by the
`program_overrides` entry's `rps` when present. -/
def effRps (cfg : Config) (q : FeedProgram) : Rat :=
  let rps := q.policyRps.getD cfg.defaultRps
  match getAL cfg.programOverrides q.name with
  | some ov => ov.rps.getD rps
  | none => rps

/-- Lines 67-72 of `loader.py`: read and parse `entry.get("last_scan")`.
A falsy value (absent, `None`, `""`, ...) yields no timestamp; a truthy
non-string raises `AttributeError` at `.replace`; an unparsable string raises
`ValueError` at `fromisoformat`. -/
def readLastScan (efs : List (String × JVal)) : Except Err (Option Int) :=
  match getAL efs "last_scan" with
  | none => .ok none
  | some v =>
    if jTruthy v then
      match asStr v with
      | .error e => .error e
      | .ok s =>
        match decodeTs s with
        | some t => .ok (some t)
        | none => .error .valueError
    else .ok none

/-- Line 82 of `loader.py`:
`last_scan and (now - last_scan) < timedelta(hours=cooldown_hours)`.
`last_scan` is parsed after `.replace("Z", "+00:00")` (line 69), so for every
timestamp the code itself writes (line 97 always appends `"Z"`) it is a
timezone-aware datetime, while `now = datetime.utcnow()` (line 51) is naive.
Python raises `TypeError` on subtracting an aware datetime from a naive one,
so evaluating the condition raises whenever `last_scan` is set; with
`last_scan` unset the `and` short-circuits to false and nothing is
subtracted.  (`cooldown_hours` is never reached on the raising path.) -/
def cooldownActive (_cfg : Config) (_now : Int) : Option Int → Except Err Bool
  | some _ => .error .typeError
  | none => .ok false

/-- The per-program body of the gate loop (lines 59-97 of `loader.py`),
acting on untyped JSON history. -/
def gateStep (cfg : Config) (now : Int) (st : GState) (q : FeedProgram) :
    Except Err GState :=
  let assets := eligAssets q
  if assets.isEmpty then .ok st
  else
    match asObj st.2.1 with
    | .error e => .error e
    | .ok hfs =>
      let entry := (getAL hfs q.name).getD (.obj [])
      match asObj entry with
      | .error e => .error e
      | .ok efs =>
        let scansToday := (getAL efs (todayKey now)).getD (.num 0)
        match readLastScan efs with
        | .error e => .error e
        | .ok lastOpt =>
          match asNum scansToday with
          | .error e => .error e
          | .ok n =>
            if n ≥ cfg.dailyLimit then .ok st
            else
              match cooldownActive cfg now lastOpt with
              | .error e => .error e
              | .ok cool =>
                if cool then .ok st
                else
                  let entry2 : JVal :=
                    .obj (setAL (setAL efs (todayKey now) (.num (n + 1)))
                      "last_scan" (.str (encodeTs now)))
                  .ok (setAL st.1 q.name ⟨assets, effRps cfg q⟩,
                    .obj (setAL hfs q.name entry2), true)

/-- The gate loop over `data.get("programs", [])`, in input order. -/
def gateLoop (cfg : Config) (now : Int) : List FeedProgram → GState → Except Err GState
  | [], st => .ok st
  | q :: qs, st =>
    match gateStep cfg now st q with
    | .error e => .error e
    | .ok st' => gateLoop cfg now qs st'

/-- The state of the persisted history file on disk. -/
inductive FileData : Type where
  | missing
  | invalid
  | json : JVal → FileData

/-- Lines 44-49 of `loader.py`: `history = {}`, replaced by the parsed file
content when the file exists and parses (`JSONDecodeError`/`OSError` caught). -/
def loadHistory : FileData → JVal
  | .missing => .obj []
  | .invalid => .obj []
  | .json v => v

/-- Lines 23-32 of `loader.py`: the `manual_run` branch. -/
def manualPrograms (cfg : Config) : Programs :=
  cfg.manualTargets.foldl
    (fun acc p => setAL acc p.program ⟨p.assets, p.rps.getD cfg.defaultRps⟩) []

/-- `fetch_h1_targets` (`loader.py`).  `feed` is the decoded feed response
(`none` models `httpx.HTTPError`), `saveOk` is whether the temp-file write and
rename succeed (the `except` on lines 108-109 only logs on failure), and
`file` is the history file on disk.  Returns the `programs` mapping and the
resulting state of the history file; `Except.error` models a Python exception
propagating out of the function. -/
def fetch_h1_targets (cfg : Config) (feed : Option (List FeedProgram)) (now : Int)
    (saveOk : Bool) (file : FileData) : Except Err (Programs × FileData) :=
  if cfg.manualRun then .ok (manualPrograms cfg, file)
  else
    match feed with
    | none => .ok ([], file)
    | some ps =>
      match gateLoop cfg now ps ([], loadHistory file, false) with
      | .error e => .error e
      | .ok st =>
        .ok (st.1, if st.2.2 then (if saveOk then .json st.2.1 else file) else file)

/-- One cycle of `main_loop` as far as the history file is concerned: the
inputs the environment supplies to `fetch_h1_targets`. -/
structure CycleIn : Type where
  feed : Option (List FeedProgram)
  now : Int
  saveOk : Bool

/-- The history file after one `fetch_h1_targets` call; an exception leaves
the file as it was (the save only runs after the loop finishes). -/
def runCycle (cfg : Config) (c : CycleIn) (file : FileData) : FileData :=
  match fetch_h1_targets cfg c.feed c.now c.saveOk file with
  | .ok pf => pf.2
  | .error _ => file

/-- The history file after a sequence of cycles. -/
def runCycles (cfg : Config) : List CycleIn → FileData → FileData
  | [], file => file
  | c :: cs, file => runCycles cfg cs (runCycle cfg c file)

/-- Extract an object's fields, as an observation. -/
def objOf : JVal → Option (List (String × JVal))
  | .obj fs => some fs
  | _ => none

/-- Extract a number, as an observation. -/
def numOf : JVal → Option Int
  | .num n => some n
  | _ => none

/-- Extract a string, as an observation. -/
def strOf : JVal → Option String
  | .str s => some s
  | _ => none

/-- The stored daily count: `history[p][d]` when it exists and is a number. -/
def countAt (h : JVal) (p d : String) : Option Int :=
  (objOf h).bind (fun fs => (getAL fs p).bind (fun e =>
    (objOf e).bind (fun efs => (getAL efs d).bind numOf)))

/-- The stored last-scan timestamp: `history[p]["last_scan"]` when it exists,
is a string, and parses. -/
def lastScanAt (h : JVal) (p : String) : Option Int :=
  (objOf h).bind (fun fs => (getAL fs p).bind (fun e =>
    (objOf e).bind (fun efs => (getAL efs "last_scan").bind (fun v =>
      (strOf v).bind decodeTs))))

/-- `AsyncLimiter(rps, 1)` as far as the core observes it (`bbot_core.py`
reads `limiter.max_rate`). -/
structure AsyncLimiter : Type where
  max_rate : Rat
  time_period : Rat

/-- `ProgramThrottler` (`throttler.py`): per-program limiter registry. -/
structure ProgramThrottler : Type where
  default_rps : Rat
  overrides : List (String × OverrideEntry)
  limiters : List (String × AsyncLimiter)

/-- `ProgramThrottler.__init__(config)`. -/
def mkThrottler (cfg : Config) : ProgramThrottler :=
  ⟨cfg.defaultRps, cfg.programOverrides, []⟩

/-- `ProgramThrottler.get`: return the cached limiter, else build one with
`self.overrides.get(program, {}).get("rps", self.default_rps)` and cache it. -/
def ProgramThrottler.get (th : ProgramThrottler) (program : String) :
    AsyncLimiter × ProgramThrottler :=
  match getAL th.limiters program with
  | some lim => (lim, th)
  | none =>
    let rps := (((getAL th.overrides program).map (fun ov => ov.rps)).getD none).getD
      th.default_rps
    let lim : AsyncLimiter := ⟨rps, 1⟩
    (lim, { th with limiters := setAL th.limiters program lim })

/-- The rate the scan path enforces for `program`: `run_scan` resolves
`limiter = throttler.get(program)` and configures every outgoing-request
engine with `limiter.max_rate` (`bbot_core.py` lines 33, 41, 75). -/
def run_scan_rate (th : ProgramThrottler) (program : String) :
    Rat × ProgramThrottler :=
  let lt := th.get program
  (lt.1.max_rate, lt.2)

/-- `throttler.get` folded over an arbitrary sequence of earlier lookups. -/
def getsAfter (th : ProgramThrottler) : List String → ProgramThrottler
  | [] => th
  | n :: ns => getsAfter ((th.get n).2) ns

/-- The override-else-default rate the process configuration assigns to a
program (spec §4.3: explicit per-program override if present, else the
configured default). -/
def configuredRate (cfg : Config) (p : String) : Rat :=
  (((getAL cfg.programOverrides p).map (fun ov => ov.rps)).getD none).getD cfg.defaultRps

/-- One scan task of a cycle (`bound_scan([asset], name, CONFIG, throttler)`). -/
structure ScanTask : Type where
  program : String
  asset : String

/-- `main.py` lines 139-144: the task-list comprehension. -/
def taskList (programs : Programs) (dryRun : Bool) : List ScanTask :=
  programs.flatMap (fun ni =>
    ni.2.assets.flatMap (fun a => if dryRun then [] else [⟨ni.1, a⟩]))

/-- Where a scan task stands relative to the semaphore. -/
inductive TStatus : Type where
  | waiting
  | running
  | done

/-- The executing phase: the semaphore's free count and each task's status. -/
structure ExecState : Type where
  free : Nat
  status : List TStatus

/-- `countP` of running tasks. -/
def countRunning (l : List TStatus) : Nat :=
  l.countP (fun s => match s with | .running => true | _ => false)

/-- The phase starts with `asyncio.Semaphore(max_scans)` full and every task
waiting to enter `async with sem`. -/
def initExec (maxScans : Nat) (tasks : List ScanTask) : ExecState :=
  ⟨maxScans, tasks.map (fun _ => .waiting)⟩

/-- Interleaving semantics of `async with sem: ... run_scan ...`: a waiting
task may acquire a slot only while the semaphore is positive; a running task
may finish and release its slot.  `asyncio.Semaphore.acquire` suspends the
caller otherwise. -/
inductive ExecStep : ExecState → ExecState → Prop where
  | acquire (s : ExecState) (i : Nat) (hfree : 0 < s.free)
      (hst : s.status.get? i = some .waiting) :
      ExecStep s ⟨s.free - 1, s.status.set i .running⟩
  | release (s : ExecState) (i : Nat)
      (hst : s.status.get? i = some .running) :
      ExecStep s ⟨s.free + 1, s.status.set i .done⟩

/-- Crash-step model of the atomic save (`loader.py` lines 100-107): the
on-disk temp file and canonical file while a save of `h` that serializes to
`n` write chunks runs for `k` steps (`k ≤ n`: some chunks written, the temp
file holds a partial — hence unparsable — prefix unless all `n` chunks are
in; `k = n + 1`: `tmp_path.replace(SCAN_DB)` has renamed the temp file over
the canonical path in one step). -/
structure FS2 : Type where
  canonical : FileData
  tmpf : Option FileData

/-- The file-system state after `k` steps of the save of `h`. -/
def saveCrash (h : JVal) (n k : Nat) (fs : FS2) : FS2 :=
  if k = 0 then fs
  else if k ≤ n then { fs with tmpf := some (if k = n then .json h else .invalid) }
  else { canonical := .json h, tmpf := some (.json h) }



theorem decodeTs_some_truthy {s : String} {t : Int} (h : decodeTs s = some t) :
    jTruthy (.str s) = true := by
  unfold decodeTs decodeChars at h
  unfold jTruthy
  cases hd : s.data with
  | nil => rw [hd] at h; exact absurd h (by simp)
  | cons c rest => simp [hd]

/-- Registry invariant: configuration fields untouched, every cached limiter
carries the override-else-default rate of its own program. -/
def ThInv (cfg : Config) (th : ProgramThrottler) : Prop :=
  th.default_rps = cfg.defaultRps ∧ th.overrides = cfg.programOverrides ∧
    ∀ q lim, getAL th.limiters q = some lim → lim = ⟨configuredRate cfg q, 1⟩

theorem thInv_mk (cfg : Config) : ThInv cfg (mkThrottler cfg) :=
  ⟨rfl, rfl, fun q lim h => by simp [mkThrottler, getAL_nil] at h⟩

theorem thInv_get (cfg : Config) (th : ProgramThrottler) (p : String)
    (hinv : ThInv cfg th) :
    ThInv cfg (th.get p).2 ∧ (th.get p).1 = ⟨configuredRate cfg p, 1⟩ := by
  obtain ⟨hd, ho, hl⟩ := hinv
  unfold ProgramThrottler.get
  cases hc : getAL th.limiters p with
  | some lim => exact ⟨⟨hd, ho, hl⟩, hl p lim hc⟩
  | none =>
    have hrate :
        ((((getAL th.overrides p).map (fun ov => ov.rps)).getD none).getD
          th.default_rps) = configuredRate cfg p := by
      rw [hd, ho, configuredRate]
    refine ⟨⟨hd, ho, ?_⟩, by rw [hrate]⟩
    intro q lim h
    rw [getAL_setAL] at h
    by_cases hq : p = q
    · rw [if_pos hq] at h
      cases h
      rw [hrate, hq]
    · rw [if_neg hq] at h
      exact hl q lim h

theorem thInv_getsAfter (cfg : Config) (names : List String) :
    ThInv cfg (getsAfter (mkThrottler cfg) names) := by
  suffices h : ∀ th, ThInv cfg th → ThInv cfg (getsAfter th names) from
    h _ (thInv_mk cfg)
  induction names with
  | nil => exact fun th hth => hth
  | cons n ns ih => exact fun th hth => ih _ (thInv_get cfg th n hth).1

theorem taskList_rps_irrelevant (programs : Programs) (f : String → ProgInfo → Rat)
    (d : Bool) :
    taskList (programs.map (fun ni => (ni.1, ⟨ni.2.assets, f ni.1 ni.2⟩))) d =
      taskList programs d := by
  induction programs with
  | nil => rfl
  | cons ni rest ih => simp [taskList] at ih ⊢; rw [ih]

theorem getAL_foldl_setAL_notin (l : List ManualTarget) (cfg : Config)
    (acc : Programs) (name : String) (h : ∀ mt ∈ l, mt.program ≠ name) :
    getAL (l.foldl (fun acc p =>
        setAL acc p.program ⟨p.assets, p.rps.getD cfg.defaultRps⟩) acc) name =
      getAL acc name := by
  induction l generalizing acc with
  | nil => rfl
  | cons mt rest ih =>
    rw [List.foldl_cons, ih _ (fun x hx => h x (List.mem_cons_of_mem _ hx)),
      getAL_setAL, if_neg (h mt (List.mem_cons_self _ _))]

theorem get_cached (th : ProgramThrottler) (p : String) (lim : AsyncLimiter)
    (h : getAL th.limiters p = some lim) : th.get p = (lim, th) := by
  unfold ProgramThrottler.get
  rw [h]

theorem get_caches (th : ProgramThrottler) (p : String) :
    getAL (th.get p).2.limiters p = some (th.get p).1 := by
  unfold ProgramThrottler.get
  cases hc : getAL th.limiters p with
  | some lim => simpa using hc
  | none => simp [getAL_setAL]

theorem manual_foldl_lookup (cfg : Config) (l : List ManualTarget) (acc : Programs)
    (hnd : (l.map (fun mt => mt.program)).Nodup) :
    ∀ mt ∈ l, getAL (l.foldl (fun acc p =>
        setAL acc p.program ⟨p.assets, p.rps.getD cfg.defaultRps⟩) acc) mt.program =
      some ⟨mt.assets, mt.rps.getD cfg.defaultRps⟩ := by
  induction l generalizing acc with
  | nil => intro mt h; cases h
  | cons mt0 rest ih =>
    intro mt hmt
    rw [List.map_cons, List.nodup_cons] at hnd
    rcases List.mem_cons.mp hmt with h | h
    · subst h
      rw [List.foldl_cons,
        getAL_foldl_setAL_notin rest cfg _ _
          (fun x hx hq => hnd.1 (by rw [← hq]; exact List.mem_map_of_mem _ hx)),
        getAL_setAL, if_pos rfl]
    · rw [List.foldl_cons]
      exact ih _ hnd.2 mt h

/-- Live-mode configuration used in concrete counterexamples:
`manual_run = false`, `default_rps = 1`, no overrides, `daily_limit = 3`,
`cooldown = 4h`. -/
def cfgLiveC1 : Config := ⟨false, [], 1, [], 3, 4, 10, false⟩

/-- A feed program with one eligible asset. -/
def progC1 : FeedProgram := ⟨"acme", [⟨"a.example.com", true⟩], none⟩

/-- Claim C1, counterexample.  The spec demands that when the save of the
updated history fails, no scans are authorized (empty program set, cycle-level
error).  In the code the `except` on lines 108-109 of `loader.py` merely logs
and the function still returns `programs`: with one eligible program and a
failing save (`saveOk = false`), `fetch_h1_targets` returns the non-empty
included set, and the history file is left unwritten. -/
theorem save_failure_still_scans_cex :
    fetch_h1_targets cfgLiveC1 (some [progC1]) 0 false .missing =
      .ok ([("acme", ⟨["a.example.com"], 1⟩)], .missing) ∧
    ([("acme", (⟨["a.example.com"], 1⟩ : ProgInfo))] : Programs) ≠ [] :=
  ⟨rfl, by simp⟩

/-- Claim C1, amended.  If persisting the updated history fails during a
cycle, the error is caught and only logged, and the gate still returns exactly
the included programs it would have returned on a successful save — the cycle
proceeds to scan anyway (only the on-disk history differs). -/
theorem save_failure_returns_same_programs (cfg : Config)
    (feed : Option (List FeedProgram)) (now : Int) (file : FileData) :
    (fetch_h1_targets cfg feed now false file).map Prod.fst =
      (fetch_h1_targets cfg feed now true file).map Prod.fst := by
  by_cases hm : cfg.manualRun = true
  · simp [fetch_h1_targets, hm]
  · simp only [fetch_h1_targets, hm, Bool.false_eq_true, if_false]
    cases feed with
    | none => rfl
    | some ps =>
      cases hg : gateLoop cfg now ps ([], loadHistory file, false) with
      | error e => simp [hg]
      | ok st => simp [hg, Except.map]

/-- Claim C4.  The save writes the complete serialization to a temp file and
then renames it over the canonical path in a single step: at every crash
point `k` of `saveCrash`, the canonical file is either the fully-old or the
fully-new content — never a partial one — and a subsequent load observes
either the old record set or exactly the saved one.  In particular the
canonical file is never mutated in place: the only step that changes it is
the atomic rename installing the complete new content. -/
theorem atomic_save_crash_safe (h : JVal) (n k : Nat) (fs : FS2) :
    ((saveCrash h n k fs).canonical = fs.canonical ∨
      (saveCrash h n k fs).canonical = .json h) ∧
    (loadHistory (saveCrash h n k fs).canonical = loadHistory fs.canonical ∨
      loadHistory (saveCrash h n k fs).canonical = h) := by
  unfold saveCrash
  by_cases h0 : k = 0
  · simp [h0]
  · by_cases h1 : k ≤ n
    · simp [h0, h1]
    · simp [h0, h1, loadHistory]

/-- Claim C5, failing input.  A history file holding `[]` — valid JSON, but
not a history object — passes the `json.loads` guarded by
`(JSONDecodeError, OSError)`; the gate then calls `history.get(name, {})` on
a list, and the resulting `AttributeError` propagates out of
`fetch_h1_targets` to the caller instead of the load yielding an empty record
set.  A missing file and an unparsable file do behave as claimed (same feed,
same config, successful result). -/
theorem malformed_json_array_raises :
    fetch_h1_targets cfgLiveC1 (some [progC1]) 0 true (.json (.arr [])) =
      .error .attributeError ∧
    fetch_h1_targets cfgLiveC1 (some [progC1]) 0 true .missing =
      .ok ([("acme", ⟨["a.example.com"], 1⟩)],
        .json (.obj [("acme",
          .obj [(todayKey 0, .num 1), ("last_scan", .str (encodeTs 0))])])) ∧
    fetch_h1_targets cfgLiveC1 (some [progC1]) 0 true .invalid =
      .ok ([("acme", ⟨["a.example.com"], 1⟩)],
        .json (.obj [("acme",
          .obj [(todayKey 0, .num 1), ("last_scan", .str (encodeTs 0))])])) :=
  ⟨rfl, rfl, rfl⟩

/-- Claim C3 failing input: a history entry exactly as the code itself writes
it — below the daily limit, `last_scan` set to a `"Z"`-suffixed timestamp. -/
def fileC3 : FileData :=
  .json (.obj [("acme", .obj [("last_scan", .str (encodeTs 0))])])

/-- Claim C3, failing input evaluated.  Spec step 3 says: if `lastScan` is
set and `now − lastScan < cooldown`, exclude, else proceed.  The code instead
raises at that comparison: line 82 of `loader.py` subtracts the parsed
`last_scan` — timezone-aware, because line 97 always writes a `"Z"` suffix
and line 69 turns it into `+00:00` — from the naive `datetime.utcnow()`, a
`TypeError` in Python that propagates out of `fetch_h1_targets` and aborts
the cycle, so the "cooldown active" exclusion is unreachable for
code-written entries.  With `last_scan` absent the gate does follow the
spec's steps and includes the program (second conjunct). -/
theorem cooldown_check_raises_type_error :
    fetch_h1_targets cfgLiveC1 (some [progC1]) 5 true fileC3 =
      .error .typeError ∧
    fetch_h1_targets cfgLiveC1 (some [progC1]) 5 true
        (.json (.obj [("acme", .obj [(todayKey 5, .num 1)])])) =
      .ok ([("acme", ⟨["a.example.com"], 1⟩)],
        .json (.obj [("acme",
          .obj [(todayKey 5, .num 2), ("last_scan", .str (encodeTs 5))])])) :=
  ⟨rfl, rfl⟩

/-- Claim C7.  After any sequence of earlier lookups, looking up `p` yields
the limiter whose rate is the per-program override rps if present else
`default_rps` (and `AsyncLimiter` time period 1); that limiter is cached
under `p`; and looking up `p` again returns the very same limiter and leaves
the registry unchanged (`get ∘ get = get`): one limiter per program for the
process lifetime, so a rate change can only take effect in a later process. -/
theorem throttler_one_limiter_per_program (cfg : Config) (names : List String)
    (p : String) :
    ((getsAfter (mkThrottler cfg) names).get p).1 =
        ⟨configuredRate cfg p, 1⟩ ∧
    getAL ((getsAfter (mkThrottler cfg) names).get p).2.limiters p =
        some ((getsAfter (mkThrottler cfg) names).get p).1 ∧
    ((getsAfter (mkThrottler cfg) names).get p).2.get p =
        (getsAfter (mkThrottler cfg) names).get p := by
  refine ⟨(thInv_get cfg _ p (thInv_getsAfter cfg names)).2, get_caches _ p, ?_⟩
  exact (get_cached _ p _ (get_caches _ p)).trans Prod.mk.eta

/-- Claim C9.  The rps the gate computes into the `programs` mapping is never
passed to the scan path: replacing it by anything leaves the constructed task
list unchanged, and the rate the scan actually enforces — `run_scan` reads
`throttler.get(program).max_rate` — equals the override-else-default rate
from the process configuration, at any point in the process lifetime. -/
theorem gate_rps_never_reaches_scan_path (cfg : Config) (programs : Programs)
    (f : String → ProgInfo → Rat) (d : Bool) (names : List String) (p : String) :
    taskList (programs.map (fun ni => (ni.1, ⟨ni.2.assets, f ni.1 ni.2⟩))) d =
      taskList programs d ∧
    (run_scan_rate (getsAfter (mkThrottler cfg) names) p).1 = configuredRate cfg p := by
  refine ⟨taskList_rps_irrelevant programs f d, ?_⟩
  show ((getsAfter (mkThrottler cfg) names).get p).1.max_rate = configuredRate cfg p
  rw [(thInv_get cfg _ p (thInv_getsAfter cfg names)).2]

/-- Claim C10.  With `manual_run` set, `fetch_h1_targets` returns the
`manual_targets` mapping built from the config alone — the history file is
returned untouched (no write) and neither `feed`, `now`, `saveOk` nor `file`
influence the result (no history read, no daily-limit or cooldown check) —
and, for distinct program names, every `manual_targets` entry appears with
its assets and its `rps`-or-default. -/
theorem manual_run_bypasses_gate (cfg : Config) (feed : Option (List FeedProgram))
    (now : Int) (saveOk : Bool) (file : FileData)
    (hman : cfg.manualRun = true)
    (hnd : (cfg.manualTargets.map (fun mt => mt.program)).Nodup) :
    fetch_h1_targets cfg feed now saveOk file = .ok (manualPrograms cfg, file) ∧
    ∀ mt ∈ cfg.manualTargets,
      getAL (manualPrograms cfg) mt.program =
        some ⟨mt.assets, mt.rps.getD cfg.defaultRps⟩ := by
  refine ⟨by simp [fetch_h1_targets, hman], ?_⟩
  exact manual_foldl_lookup cfg cfg.manualTargets [] hnd

/-- Claim C10 witness: a two-entry manual configuration. -/
def cfgManual : Config :=
  ⟨true, [⟨"acme", ["a.example.com"], some 2⟩, ⟨"beta", ["b.example.com"], none⟩],
    1, [], 3, 4, 10, false⟩



theorem asObj_ok {v : JVal} {fs : List (String × JVal)} (h : asObj v = .ok fs) :
    v = .obj fs := by
  cases v with
  | obj fs' => injection h with h2; rw [h2]
  | arr l => exact Except.noConfusion h
  | str s => exact Except.noConfusion h
  | num n => exact Except.noConfusion h
  | null => exact Except.noConfusion h

/-- Inversion of the gate body: a successful step either leaves the state
unchanged (skip/exclude) or performs exactly the include update, which
requires the daily count to be strictly below the limit and the cooldown
condition to have evaluated without raising. -/
theorem gateStep_ok_inv (cfg : Config) (now : Int) (st : GState) (q : FeedProgram)
    (st' : GState) (h : gateStep cfg now st q = .ok st') :
    st' = st ∨
    ∃ hfs efs lastOpt n,
      st.2.1 = .obj hfs ∧
      (getAL hfs q.name).getD (.obj []) = .obj efs ∧
      readLastScan efs = .ok lastOpt ∧
      ¬ n ≥ cfg.dailyLimit ∧
      cooldownActive cfg now lastOpt = .ok false ∧
      st' = (setAL st.1 q.name ⟨eligAssets q, effRps cfg q⟩,
        .obj (setAL hfs q.name (.obj (setAL (setAL efs (todayKey now) (.num (n + 1)))
          "last_scan" (.str (encodeTs now))))), true) := by
  unfold gateStep at h
  by_cases hA : (eligAssets q).isEmpty = true
  · simp only [hA, if_true] at h
    exact Or.inl (Except.ok.inj h).symm
  · simp only [hA, Bool.false_eq_true, if_false] at h
    cases h1 : asObj st.2.1 with
    | error e => simp only [h1] at h; exact Except.noConfusion h
    | ok hfs =>
      simp only [h1] at h
      cases h2 : asObj ((getAL hfs q.name).getD (.obj [])) with
      | error e => simp only [h2] at h; exact Except.noConfusion h
      | ok efs =>
        simp only [h2] at h
        cases h3 : readLastScan efs with
        | error e => simp only [h3] at h; exact Except.noConfusion h
        | ok lastOpt =>
          simp only [h3] at h
          cases h4 : asNum ((getAL efs (todayKey now)).getD (.num 0)) with
          | error e => simp only [h4] at h; exact Except.noConfusion h
          | ok n =>
            simp only [h4] at h
            by_cases hlim : n ≥ cfg.dailyLimit
            · rw [if_pos hlim] at h
              exact Or.inl (Except.ok.inj h).symm
            · rw [if_neg hlim] at h
              cases h5 : cooldownActive cfg now lastOpt with
              | error e => simp only [h5] at h; exact Except.noConfusion h
              | ok cool =>
                simp only [h5] at h
                by_cases hcool : cool = true
                · rw [if_pos hcool] at h
                  exact Or.inl (Except.ok.inj h).symm
                · rw [if_neg hcool] at h
                  have hcf : cool = false := by
                    cases cool
                    · rfl
                    · exact absurd rfl hcool
                  exact Or.inr ⟨hfs, efs, lastOpt, n, asObj_ok h1, asObj_ok h2, h3,
                    hlim, by rw [h5, hcf], (Except.ok.inj h).symm⟩

/-- Every daily count the history value stores is at most `limit`. -/
def BoundedFile (limit : Int) (h : JVal) : Prop :=
  ∀ p d n, countAt h p d = some n → n ≤ limit

theorem gateStep_bounded (cfg : Config) (now : Int) (st : GState) (q : FeedProgram)
    (st' : GState) (h : gateStep cfg now st q = .ok st')
    (hb : BoundedFile cfg.dailyLimit st.2.1) :
    BoundedFile cfg.dailyLimit st'.2.1 := by
  rcases gateStep_ok_inv cfg now st q st' h with heq |
    ⟨hfs, efs, lastOpt, n0, h1, h2, h3, hlim, hcool, h5⟩
  · rw [heq]
    exact hb
  · rw [h5]
    intro p d n hc
    simp only [countAt, objOf, Option.some_bind] at hc
    rw [getAL_setAL] at hc
    by_cases hqp : q.name = p
    · rw [if_pos hqp] at hc
      simp only [Option.some_bind, objOf] at hc
      rw [getAL_setAL] at hc
      by_cases hdl : "last_scan" = d
      · rw [if_pos hdl] at hc
        exact absurd hc (by simp [numOf])
      · rw [if_neg hdl] at hc
        rw [getAL_setAL] at hc
        by_cases htd : todayKey now = d
        · rw [if_pos htd] at hc
          simp only [Option.some_bind, numOf] at hc
          have h6 := Option.some.inj hc
          omega
        · rw [if_neg htd] at hc
          apply hb p d n
          rw [h1]
          simp only [countAt, objOf, Option.some_bind]
          rw [hqp] at h2
          cases hg : getAL hfs p with
          | some e =>
            rw [hg, Option.getD_some] at h2
            simp only [Option.some_bind]
            rw [h2]
            exact hc
          | none =>
            rw [hg, Option.getD_none] at h2
            have hefs : efs = [] := (JVal.obj.inj h2).symm
            rw [hefs, getAL_nil] at hc
            exact absurd hc (by simp)
    · rw [if_neg hqp] at hc
      apply hb p d n
      rw [h1]
      simp only [countAt, objOf, Option.some_bind]
      exact hc

theorem gateLoop_bounded (cfg : Config) (now : Int) (ps : List FeedProgram) :
    ∀ st st', gateLoop cfg now ps st = .ok st' →
      BoundedFile cfg.dailyLimit st.2.1 → BoundedFile cfg.dailyLimit st'.2.1 := by
  induction ps with
  | nil =>
    intro st st' h hb
    rw [← Except.ok.inj h]
    exact hb
  | cons q qs ih =>
    intro st st' h hb
    rw [gateLoop] at h
    cases hstep : gateStep cfg now st q with
    | error e => rw [hstep] at h; exact Except.noConfusion h
    | ok st1 =>
      rw [hstep] at h
      exact ih st1 st' h (gateStep_bounded cfg now st q st1 hstep hb)

theorem runCycle_bounded (cfg : Config) (c : CycleIn) (file : FileData)
    (hb : BoundedFile cfg.dailyLimit (loadHistory file)) :
    BoundedFile cfg.dailyLimit (loadHistory (runCycle cfg c file)) := by
  unfold runCycle fetch_h1_targets
  by_cases hm : cfg.manualRun = true
  · rw [if_pos hm]
    exact hb
  · rw [if_neg hm]
    cases c.feed with
    | none => exact hb
    | some ps =>
      cases hgl : gateLoop cfg c.now ps ([], loadHistory file, false) with
      | error e => simp only [hgl]; exact hb
      | ok st =>
        simp only [hgl]
        have hb' := gateLoop_bounded cfg c.now ps ([], loadHistory file, false) st hgl hb
        by_cases hu : st.2.2 = true
        · by_cases hs : c.saveOk = true
          · simp only [hu, hs, if_true]
            exact hb'
          · simp only [hu, hs, if_true, Bool.false_eq_true, if_false]
            exact hb
        · simp only [hu, Bool.false_eq_true, if_false]
          exact hb

theorem runCycles_bounded (cfg : Config) (cycles : List CycleIn) :
    ∀ file, BoundedFile cfg.dailyLimit (loadHistory file) →
      BoundedFile cfg.dailyLimit (loadHistory (runCycles cfg cycles file)) := by
  induction cycles with
  | nil => exact fun file hb => hb
  | cons c cs ih => exact fun file hb => ih _ (runCycle_bounded cfg c file hb)

/-- Claim C2.  Starting from an empty (missing) history and running any
sequence of cycles — arbitrary feeds, clock values and save outcomes — every
daily count stored in the history file stays at most `dailyLimit`: the gate
increments a count only after checking it is strictly below the limit. -/
theorem daily_count_never_exceeds_limit (cfg : Config) (cycles : List CycleIn)
    (p d : String) (n : Int)
    (h : countAt (loadHistory (runCycles cfg cycles .missing)) p d = some n) :
    n ≤ cfg.dailyLimit := by
  have h0 : BoundedFile cfg.dailyLimit (loadHistory FileData.missing) := by
    intro p d n hc
    exact absurd hc (by simp [loadHistory, countAt, objOf, getAL_nil])
  exact runCycles_bounded cfg cycles .missing h0 p d n h

/-- Claim C2 witness: one cycle on one program yields a stored count of 1,
which the theorem bounds by the limit 3. -/
theorem daily_count_never_exceeds_limit_witness :
    countAt (loadHistory (runCycles cfgLiveC1 [⟨some [progC1], 0, true⟩] .missing))
        "acme" (todayKey 0) = some 1 ∧
      (1 : Int) ≤ cfgLiveC1.dailyLimit :=
  ⟨rfl, daily_count_never_exceeds_limit cfgLiveC1 [⟨some [progC1], 0, true⟩]
    "acme" (todayKey 0) 1 rfl⟩

/-- The history holds a decodable last-scan value ≥ `t0` for program `p`. -/
def LastInv (p : String) (t0 : Int) (h : JVal) : Prop :=
  ∃ fs efs s t, h = .obj fs ∧ getAL fs p = some (.obj efs) ∧
    getAL efs "last_scan" = some (.str s) ∧ decodeTs s = some t ∧ t0 ≤ t

theorem objOf_some {v : JVal} {fs : List (String × JVal)} (h : objOf v = some fs) :
    v = .obj fs := by
  cases v with
  | obj fs' => injection h with h2; rw [h2]
  | arr l => exact Option.noConfusion h
  | str s => exact Option.noConfusion h
  | num n => exact Option.noConfusion h
  | null => exact Option.noConfusion h

theorem strOf_some {v : JVal} {s : String} (h : strOf v = some s) : v = .str s := by
  cases v with
  | obj fs' => exact Option.noConfusion h
  | arr l => exact Option.noConfusion h
  | str s' => injection h with h2; rw [h2]
  | num n => exact Option.noConfusion h
  | null => exact Option.noConfusion h

theorem lastInv_of_lastScanAt {h : JVal} {p : String} {t : Int}
    (hl : lastScanAt h p = some t) : LastInv p t h := by
  unfold lastScanAt at hl
  cases h1 : objOf h with
  | none => rw [h1] at hl; exact absurd hl (by simp)
  | some fs =>
    rw [h1] at hl
    simp only [Option.some_bind] at hl
    cases h2 : getAL fs p with
    | none => rw [h2] at hl; exact absurd hl (by simp)
    | some e =>
      rw [h2] at hl
      simp only [Option.some_bind] at hl
      cases h3 : objOf e with
      | none => rw [h3] at hl; exact absurd hl (by simp)
      | some efs =>
        rw [h3] at hl
        simp only [Option.some_bind] at hl
        cases h4 : getAL efs "last_scan" with
        | none => rw [h4] at hl; exact absurd hl (by simp)
        | some v =>
          rw [h4] at hl
          simp only [Option.some_bind] at hl
          cases h5 : strOf v with
          | none => rw [h5] at hl; exact absurd hl (by simp)
          | some s =>
            rw [h5] at hl
            simp only [Option.some_bind] at hl
            exact ⟨fs, efs, s, t, objOf_some h1,
              by rw [← objOf_some h3]; exact h2,
              by rw [← strOf_some h5]; exact h4, hl, le_refl t⟩

theorem lastScanAt_of_lastInv {h : JVal} {p : String} {t0 : Int}
    (hL : LastInv p t0 h) : ∃ t, lastScanAt h p = some t ∧ t0 ≤ t := by
  obtain ⟨fs, efs, s, t, h1, h2, h3, h4, h5⟩ := hL
  refine ⟨t, ?_, h5⟩
  rw [h1]
  simp only [lastScanAt, objOf, Option.some_bind]
  rw [h2]
  simp only [Option.some_bind, objOf]
  rw [h3]
  simp only [Option.some_bind, strOf]
  exact h4

theorem readLastScan_of_decodable {efs : List (String × JVal)} {s : String}
    {t : Int} {lastOpt : Option Int}
    (h3 : getAL efs "last_scan" = some (.str s)) (h4 : decodeTs s = some t)
    (hread : readLastScan efs = .ok lastOpt) : lastOpt = some t := by
  unfold readLastScan at hread
  simp only [h3] at hread
  rw [decodeTs_some_truthy h4] at hread
  rw [if_pos rfl] at hread
  simp only [asStr] at hread
  simp only [h4] at hread
  exact (Except.ok.inj hread).symm

theorem gateStep_lastInv (cfg : Config) (now : Int) (st : GState) (q : FeedProgram)
    (st' : GState) (p : String) (t0 : Int)
    (h : gateStep cfg now st q = .ok st') (hL : LastInv p t0 st.2.1) :
    LastInv p t0 st'.2.1 := by
  rcases gateStep_ok_inv cfg now st q st' h with heq |
    ⟨hfs, efs, lastOpt, n, h1, h2, h3, hlim, h4, h5⟩
  · rw [heq]
    exact hL
  · obtain ⟨fs0, efs0, s, t, hh1, hh2, hh3, hh4, hh5⟩ := hL
    rw [h1] at hh1
    have hfse : hfs = fs0 := JVal.obj.inj hh1
    rw [← hfse] at hh2
    rw [h5]
    by_cases hqp : q.name = p
    · rw [hqp] at h2
      rw [hh2, Option.getD_some] at h2
      have hefse : efs = efs0 := (JVal.obj.inj h2).symm
      rw [hefse] at h3
      have hlo : lastOpt = some t := readLastScan_of_decodable hh3 hh4 h3
      rw [hlo] at h4
      exact absurd h4 (by simp [cooldownActive])
    · refine ⟨_, efs0, s, t, rfl, ?_, hh3, hh4, hh5⟩
      rw [getAL_setAL, if_neg hqp]
      exact hh2

theorem gateLoop_lastInv (cfg : Config) (now : Int) (ps : List FeedProgram)
    (p : String) (t0 : Int) :
    ∀ st st', gateLoop cfg now ps st = .ok st' → LastInv p t0 st.2.1 →
      LastInv p t0 st'.2.1 := by
  induction ps with
  | nil =>
    intro st st' h hL
    rw [← Except.ok.inj h]
    exact hL
  | cons q qs ih =>
    intro st st' h hL
    rw [gateLoop] at h
    cases hstep : gateStep cfg now st q with
    | error e => rw [hstep] at h; exact Except.noConfusion h
    | ok st1 =>
      rw [hstep] at h
      exact ih st1 st' h (gateStep_lastInv cfg now st q st1 p t0 hstep hL)

/-- Claim C6.  The recorded `last_scan` of a program never moves backwards:
for any history file whose entry for `p` holds a decodable timestamp `t`,
any successful `fetch_h1_targets` (with a non-negative cooldown, as
configured) leaves the file with a timestamp `t' ≥ t` for `p`.  The gate
rewrites `last_scan` only to `now`, and for an entry already holding a
recorded timestamp the cooldown comparison raises `TypeError` before any
rewrite (claim C3's finding), so a fetch that returns at all leaves that
value untouched — in every case `t' ≥ t`. -/
theorem last_scan_monotone (cfg : Config) (feed : Option (List FeedProgram))
    (now : Int) (saveOk : Bool) (file : FileData) (p : String) (t t' : Int)
    (P : Programs) (file' : FileData)
    (hcd : 0 ≤ cfg.cooldownHours)
    (hold : lastScanAt (loadHistory file) p = some t)
    (hrun : fetch_h1_targets cfg feed now saveOk file = .ok (P, file'))
    (hnew : lastScanAt (loadHistory file') p = some t') :
    t ≤ t' := by
  have same_file : file' = file → t ≤ t' := by
    intro hf
    rw [hf] at hnew
    rw [Option.some.inj (hold.symm.trans hnew)]
  unfold fetch_h1_targets at hrun
  by_cases hm : cfg.manualRun = true
  · rw [if_pos hm] at hrun
    exact same_file (congrArg Prod.snd (Except.ok.inj hrun)).symm
  · rw [if_neg hm] at hrun
    cases feed with
    | none => exact same_file (congrArg Prod.snd (Except.ok.inj hrun)).symm
    | some ps =>
      cases hgl : gateLoop cfg now ps ([], loadHistory file, false) with
      | error e => simp only [hgl] at hrun; exact Except.noConfusion hrun
      | ok st =>
        simp only [hgl] at hrun
        have hfile : (if st.2.2 = true then
            (if saveOk = true then FileData.json st.2.1 else file) else file) =
            file' := congrArg Prod.snd (Except.ok.inj hrun)
        by_cases hu : st.2.2 = true
        · by_cases hs : saveOk = true
          · rw [if_pos hu, if_pos hs] at hfile
            have hLn : LastInv p t st.2.1 :=
              gateLoop_lastInv cfg now ps p t _ st hgl
                (lastInv_of_lastScanAt hold)
            obtain ⟨t2, hat, hle⟩ := lastScanAt_of_lastInv hLn
            rw [← hfile] at hnew
            rw [loadHistory] at hnew
            rw [hat] at hnew
            rw [← Option.some.inj hnew]
            exact hle
          · rw [if_pos hu, if_neg hs] at hfile
            exact same_file hfile.symm
        · rw [if_neg hu] at hfile
          exact same_file hfile.symm

/-- Claim C6 witness configuration: the default-like 4-hour cooldown. -/
def cfgC6 : Config := ⟨false, [], 1, [], 3, 4, 10, false⟩

/-- Claim C6 witness history: "acme" already at the daily limit today, with
`last_scan = 0`. -/
def fileC6 : FileData :=
  .json (.obj [("acme", .obj [(todayKey 5, .num 3), ("last_scan", .str (encodeTs 0))])])

theorem last_scan_monotone_witness :
    (0 : Rat) ≤ cfgC6.cooldownHours ∧
    lastScanAt (loadHistory fileC6) "acme" = some 0 ∧
    fetch_h1_targets cfgC6 (some [progC1]) 5 true fileC6 = .ok ([], fileC6) ∧
    lastScanAt (loadHistory fileC6) "acme" = some 0 ∧
    (0 : Int) ≤ 0 :=
  ⟨by norm_num [cfgC6], by rfl, by rfl, by rfl,
    last_scan_monotone cfgC6 (some [progC1]) 5 true fileC6 "acme" 0 0 [] fileC6
      (by norm_num [cfgC6]) (by rfl) (by rfl) (by rfl)⟩

theorem cr_acquire (l : List TStatus) (i : Nat) (h : l.get? i = some .waiting) :
    countRunning (l.set i .running) = countRunning l + 1 := by
  induction l generalizing i with
  | nil => cases h
  | cons a rest ih =>
    cases i with
    | zero =>
      injection h with h2
      subst h2
      simp [List.set, countRunning, List.countP_cons]
    | succ j =>
      simp only [List.get?_cons_succ] at h
      simp only [List.set, countRunning, List.countP_cons] at ih ⊢
      rw [ih j h]
      omega

theorem cr_release (l : List TStatus) (i : Nat) (h : l.get? i = some .running) :
    countRunning (l.set i .done) + 1 = countRunning l := by
  induction l generalizing i with
  | nil => cases h
  | cons a rest ih =>
    cases i with
    | zero =>
      injection h with h2
      subst h2
      simp [List.set, countRunning, List.countP_cons]
    | succ j =>
      simp only [List.get?_cons_succ] at h
      simp only [List.set, countRunning, List.countP_cons] at ih ⊢
      rw [← ih j h]
      omega

/-- The executing phase's conserved quantity: running tasks plus free slots
equal the semaphore's initial count. -/
def ExecInv (maxScans : Nat) (s : ExecState) : Prop :=
  countRunning s.status + s.free = maxScans

theorem execStep_inv {maxScans : Nat} {s s' : ExecState}
    (hstep : ExecStep s s') (hinv : ExecInv maxScans s) : ExecInv maxScans s' := by
  cases hstep with
  | acquire i hfree hst =>
    unfold ExecInv at hinv ⊢
    simp only
    rw [cr_acquire s.status i hst]
    omega
  | release i hst =>
    unfold ExecInv at hinv ⊢
    simp only
    have := cr_release s.status i hst
    omega

theorem exec_reach_inv (maxScans : Nat) (s0 s : ExecState)
    (h : Relation.ReflTransGen ExecStep s0 s) (h0 : ExecInv maxScans s0) :
    ExecInv maxScans s := by
  induction h with
  | refl => exact h0
  | tail hsteps hstep ih => exact execStep_inv hstep ih

theorem countRunning_all_waiting (tasks : List ScanTask) :
    countRunning (tasks.map (fun _ => TStatus.waiting)) = 0 := by
  induction tasks with
  | nil => rfl
  | cons a rest ih => simp [countRunning, List.countP_cons] at ih ⊢

/-- Claim C8.  In the executing phase — one `bound_scan` per `(program,
asset)` pair, each wrapped in `async with sem` for `sem =
Semaphore(max_concurrent_scans)` — every state reachable by acquire/release
interleavings from the initial state has at most `maxConcurrentScans` tasks
running (a waiting task can acquire only while a slot is free), and, when
`dry_run` is off, the task list holds exactly one task per eligible asset of
each gated program. -/
theorem executor_bounded_concurrency (cfg : Config) (programs : Programs)
    (s : ExecState)
    (hreach : Relation.ReflTransGen ExecStep
      (initExec cfg.maxConcurrentScans (taskList programs cfg.dryRun)) s)
    (hdry : cfg.dryRun = false) :
    countRunning s.status ≤ cfg.maxConcurrentScans ∧
    taskList programs cfg.dryRun =
      programs.flatMap (fun ni => ni.2.assets.map (fun a => ⟨ni.1, a⟩)) := by
  constructor
  · have h0 : ExecInv cfg.maxConcurrentScans
        (initExec cfg.maxConcurrentScans (taskList programs cfg.dryRun)) := by
      unfold ExecInv initExec
      simp only
      rw [countRunning_all_waiting]
      omega
    have hinv := exec_reach_inv cfg.maxConcurrentScans _ s hreach h0
    unfold ExecInv at hinv
    omega
  · rw [hdry]
    unfold taskList
    congr 1
    funext ni
    simp only [Bool.false_eq_true, if_false]
    induction ni.2.assets with
    | nil => rfl
    | cons a rest ih => simp only [List.flatMap_cons, List.map_cons, ih]; rfl

/-- Claim C8 witness: two assets of one program under `max_concurrent_scans
= 10`, at the initial (reachable) state. -/
theorem executor_bounded_concurrency_witness :
    cfgLiveC1.dryRun = false ∧
    (countRunning (initExec cfgLiveC1.maxConcurrentScans
        (taskList [("acme", ⟨["a.example.com", "b.example.com"], 1⟩)]
          cfgLiveC1.dryRun)).status ≤ cfgLiveC1.maxConcurrentScans ∧
      taskList [("acme", ⟨["a.example.com", "b.example.com"], 1⟩)] cfgLiveC1.dryRun =
        [⟨"acme", "a.example.com"⟩, ⟨"acme", "b.example.com"⟩]) := by
  have h := executor_bounded_concurrency cfgLiveC1
    [("acme", ⟨["a.example.com", "b.example.com"], 1⟩)]
    (initExec cfgLiveC1.maxConcurrentScans
      (taskList [("acme", ⟨["a.example.com", "b.example.com"], 1⟩)] cfgLiveC1.dryRun))
    Relation.ReflTransGen.refl rfl
  exact ⟨rfl, h.1, by rfl⟩

theorem manual_run_bypasses_gate_witness :
    cfgManual.manualRun = true ∧
    (cfgManual.manualTargets.map (fun mt => mt.program)).Nodup ∧
    (fetch_h1_targets cfgManual none 0 true .missing =
        .ok (manualPrograms cfgManual, .missing) ∧
      ∀ mt ∈ cfgManual.manualTargets,
        getAL (manualPrograms cfgManual) mt.program =
          some ⟨mt.assets, mt.rps.getD cfgManual.defaultRps⟩) :=
  ⟨rfl, by decide,
    manual_run_bypasses_gate cfgManual none 0 true .missing rfl (by decide)⟩

end Icarus
